import Mathlib

/-!
Verification of the dispatch-and-delivery engine of a mesh-network chat bot
(`modules/command_manager.py`).  Python strings are modelled as `List Char`
(Python code points); UTF-8 byte lengths are computed with `Char.utf8Size`.
Fallible or possibly diverging code returns `Option` (`none` models an
uncaught exception or nontermination).
-/

namespace MeshBot

/-- UTF-8 byte length of a string, `len(s.encode('utf-8'))`. -/
def utf8Len (s : List Char) : Nat := s.foldr (fun c n => c.utf8Size + n) 0

/-- Whitespace predicate of Python `str.strip` / `str.isspace`
(ASCII whitespace plus the Unicode space characters). -/
def isPySpace (c : Char) : Bool :=
  c = ' ' || c = '\t' || c = '\n' || c = '\x0d' || c = '\x0b' || c = '\x0c' ||
  c = '\u0085' || c = '\u00a0' || c = '\u1680' ||
  (0x2000 ≤ c.toNat && c.toNat ≤ 0x200a) ||
  c = '\u2028' || c = '\u2029' || c = '\u202f' || c = '\u205f' || c = '\u3000'

/-- Python `s.lstrip()`. -/
def lstripList (s : List Char) : List Char := s.dropWhile isPySpace

/-- Python `s.rstrip()`. -/
def rstripList (s : List Char) : List Char := (s.reverse.dropWhile isPySpace).reverse

/-- Python `s.strip()`. -/
def stripList (s : List Char) : List Char := rstripList (lstripList s)

/-- Decimal digit to character, as in Python decimal rendering. -/
def digitChar (d : Nat) : Char :=
  match d with
  | 0 => '0' | 1 => '1' | 2 => '2' | 3 => '3' | 4 => '4'
  | 5 => '5' | 6 => '6' | 7 => '7' | 8 => '8' | 9 => '9'
  | _ => '*'

/-- Fuel-driven accumulator loop rendering `n` in decimal (most significant
digit first), modelling Python `str(n)` for natural numbers. -/
def natCharsAux : Nat → Nat → List Char → List Char
  | 0, _, acc => acc
  | fuel + 1, n, acc =>
    if n < 10 then digitChar n :: acc
    else natCharsAux fuel (n / 10) (digitChar (n % 10) :: acc)

/-- Python `str(n)` for a natural number. -/
def natChars (n : Nat) : List Char := natCharsAux (n + 1) n []

/-- Python `str(i)` for an integer. -/
def intChars (i : Int) : List Char :=
  if i < 0 then '-' :: natChars i.natAbs else natChars i.toNat

/-- The part of the `"[p/e] "` prefix before `"] "`, that is `"[p/e"`. -/
def pfxCore (p : Nat) (est : Int) : List Char :=
  '[' :: natChars p ++ '/' :: intChars est

/-- The part prefix `f"[{part_num}/{estimated_parts}] "` built by
`split_message` (`command_manager.py` line 218). -/
def pfxLoop (p : Nat) (est : Int) : List Char := pfxCore p est ++ [']', ' ']

/-- Whether `pat` occurs at the very start of `s` (Python `startswith`,
also the single-position matcher used by `find`/`rfind`). -/
def patAt (pat s : List Char) : Bool :=
  match pat, s with
  | [], _ => true
  | _ :: _, [] => false
  | a :: ps, b :: ss => a = b && patAt ps ss

/-- Python `s.find(pat)`: index of the first occurrence, `none` for `-1`. -/
def findPat (s pat : List Char) : Option Nat :=
  match s with
  | [] => if patAt pat [] then some 0 else none
  | _ :: t => if patAt pat s then some 0 else (findPat t pat).map (· + 1)

/-- Python `s.rfind(pat)`: index of the last occurrence, `none` for `-1`. -/
def rfindPat (s pat : List Char) : Option Nat :=
  match s with
  | [] => if patAt pat [] then some 0 else none
  | _ :: t =>
    match rfindPat t pat with
    | some i => some (i + 1)
    | none => if patAt pat s then some 0 else none

/-- The `for punct in [...]: ... else: ...` sweeps of `split_message`
(lines 241-252): the first pattern whose last occurrence lies past the
midpoint wins, yielding `punct_pos + len(punct)`. -/
def pickPunct (chunk : List Char) (half : Nat) : List (List Char) → Option Nat
  | [] => none
  | pat :: rest =>
    match rfindPat chunk pat with
    | some p => if half < p then some (p + pat.length) else pickPunct chunk half rest
    | none => pickPunct chunk half rest

/-- Step 4 of the logical-split preference order (lines 254-258): a space past
the midpoint, else the byte-safe default. -/
def spaceStep (chunk : List Char) (dflt : Nat) : Nat :=
  match rfindPat chunk [' '] with
  | some p => if chunk.length / 2 < p then p + 1 else dflt
  | none => dflt

/-- Step 3 (lines 247-252): comma or semicolon followed by a space, past the
midpoint; else fall through to the space step. -/
def commaStep (chunk : List Char) (dflt : Nat) : Nat :=
  match pickPunct chunk (chunk.length / 2) [[',', ' '], [';', ' ']] with
  | some i => i
  | none => spaceStep chunk dflt

/-- Step 2 (lines 240-245): end-of-sentence punctuation past the midpoint;
else fall through to the comma step. -/
def sentenceStep (chunk : List Char) (dflt : Nat) : Nat :=
  match pickPunct chunk (chunk.length / 2) [['.', ' '], ['!', ' '], ['?', ' ']] with
  | some i => i
  | none => commaStep chunk dflt

/-- The logical-split-point adjustment of `split_message` (lines 232-258):
prefer a newline, then sentence punctuation, then comma/semicolon, then a
space, each only past the midpoint of `chunk`; otherwise keep `dflt`
(the byte-safe split index). -/
def adjustSplitIndex (chunk : List Char) (dflt : Nat) : Nat :=
  match rfindPat chunk ['\n'] with
  | some p => if chunk.length / 2 < p then p + 1 else sentenceStep chunk dflt
  | none => sentenceStep chunk dflt

/-- The binary search of `_find_byte_safe_split` (lines 294-304), with fuel;
`fits m` is `len(text[:m].encode('utf-8')) <= max_bytes`. -/
def bsearchAux (fits : Nat → Bool) : Nat → Nat → Nat → Nat
  | 0, low, _ => low
  | fuel + 1, low, high =>
    if low < high then
      let mid := (low + high + 1) / 2
      if fits mid then bsearchAux fits fuel mid high
      else bsearchAux fits fuel low (mid - 1)
    else low

/-- `CommandManager._find_byte_safe_split` (lines 278-304): largest character
index whose prefix UTF-8-encodes to at most `maxB` bytes.  `maxB` is an `Int`
because the caller passes `max_bytes - prefix_bytes`, which can be negative. -/
def findByteSafeSplit (text : List Char) (maxB : Int) : Nat :=
  if (utf8Len text : Int) ≤ maxB then text.length
  else bsearchAux (fun m => (utf8Len (text.take m) : Int) ≤ maxB) text.length 0 text.length

/-- `part.find('] ') + 2` of the renumbering pass (line 271), with Python's
`-1 + 2 = 1` when the pattern is absent. -/
def oldPfxEnd (part : List Char) : Nat :=
  match findPat part [']', ' '] with
  | some k => k + 2
  | none => 1

/-- `part[old_prefix_end:]` (line 272): the body of a part, its `"[i/n] "`
prefix removed. -/
def bodyOf (part : List Char) : List Char := part.drop (oldPfxEnd part)

/-- The `while remaining:` loop of `split_message` (lines 216-263), with fuel;
`none` models nontermination of the Python loop.  Each iteration emits
`prefix + part_content` and continues on `remaining[split_index:].lstrip()`. -/
def splitLoop (maxB : Nat) (est : Int) : Nat → Nat → List Char → Option (List (List Char))
  | 0, _, _ => none
  | fuel + 1, partNum, remaining =>
    if remaining = [] then some []
    else
      let pfx := pfxLoop partNum est
      let avail : Int := (maxB : Int) - (utf8Len pfx : Int)
      if (utf8Len remaining : Int) ≤ avail then some [pfx ++ remaining]
      else
        let d := findByteSafeSplit remaining avail
        let idx := adjustSplitIndex (remaining.take d) d
        match splitLoop maxB est fuel (partNum + 1) (lstripList (remaining.drop idx)) with
        | none => none
        | some ps => some ((pfx ++ rstripList (remaining.take idx)) :: ps)

/-- `estimated_parts` (line 213): ceiling division of the total byte length by
`max_bytes - 7`, written with Python's floor division (`Int.fdiv`). -/
def estimatedParts (content : List Char) (maxB : Nat) : Int :=
  Int.fdiv ((utf8Len content : Int) + ((maxB : Int) - 7) - 1) ((maxB : Int) - 7)

/-- The renumbering pass of `split_message` (lines 266-274): part `i` (1-based)
becomes `f"[{i}/{total}] "` plus the old body. -/
def renumberAux (total : Nat) : Nat → List (List Char) → List (List Char)
  | _, [] => []
  | i, p :: ps => (pfxLoop i (total : Int) ++ bodyOf p) :: renumberAux total (i + 1) ps

/-- `CommandManager.split_message` (lines 181-276).  Returns `none` when the
Python code raises (`max_bytes == 7` divides by zero) or its loop diverges;
the fuel `content.length + 1` is exact: the loop can only terminate within
that many iterations, since every completed iteration consumes at least one
character. -/
def split_message (content : List Char) (maxB : Nat) : Option (List (List Char)) :=
  if utf8Len content ≤ maxB then some [content]
  else if (maxB : Int) - 7 = 0 then none
  else
    let est := estimatedParts content maxB
    match splitLoop maxB est (content.length + 1) 1 content with
    | none => none
    | some parts =>
      some (if (parts.length : Int) ≠ est then renumberAux parts.length 1 parts else parts)

/-!  Delivery pipeline: the part-sending loops of `send_dm` (lines 512-525)
and `send_channel_message` (lines 644-657), which are structurally identical.
The outcome of each `_send_dm_single` / `_send_channel_message_single` call is
an external event, so the loop is embedded over the list of those outcomes. -/

/-- The `for i, part in enumerate(parts)` sending loop shared by `send_dm` and
`send_channel_message`: given the per-part single-send outcomes, returns
(number of parts sent successfully, number of parts attempted, the returned
`all_success`).  On the first failure the loop sets `all_success = False` and
breaks, so no later part is attempted. -/
def sendPartsLoop : List Bool → Nat × Nat × Bool
  | [] => (0, 0, true)
  | r :: rs =>
    if r then
      let (s, a, ok) := sendPartsLoop rs
      (s + 1, a + 1, ok)
    else (0, 1, false)

/-!  Result classification: `CommandManager._handle_send_result`
(lines 124-179). -/

/-- The `type` of a meshcore send-result event: `EventType.ERROR`,
`EventType.MSG_SENT`, `EventType.OK`, or any other event type (the numeric
tag keeps distinct unexpected types distinct; only used for logging). -/
inductive EvType where
  | error : EvType
  | msgSent : EvType
  | ok : EvType
  | other : Nat → EvType
deriving DecidableEq

/-- A send result object: `etype = none` models a result object without a
`type` attribute (line 175); `reason` models `result.payload.get('reason')`
when the payload is a dict carrying one. -/
structure SendEv where
  etype : Option EvType
  reason : Option String
deriving DecidableEq

/-- `CommandManager._handle_send_result` (lines 124-179).  `result = none`
models a falsy result; `isChannel` is `operation_name == "Channel message"`.
Returns (success, whether `rate_limiter.record_send()` and
`bot_tx_rate_limiter.record_tx()` were called). -/
def handleSendResult (result : Option SendEv) (isChannel : Bool) : Bool × Bool :=
  match result with
  | none => (false, false)
  | some ev =>
    match ev.etype with
    | some EvType.error => (false, false)
    | some EvType.msgSent => (true, true)
    | some EvType.ok => (true, true)
    | some (EvType.other _) =>
      if isChannel && ev.reason == some "no_event_received" then (true, true)
      else (false, false)
    | none => (true, true)

/-!  Execution gate and orchestrator: `CommandManager.execute_commands`
(lines 863-1016). -/

/-- The capability surface of one registered command as consulted by
`execute_commands` for the fixed incoming message: `shouldExecute` is
`command.should_execute(message)`, `hasResponseFormat` is
`command.get_response_format() is not None`, `canExecuteNow` is
`command.can_execute_now(message)`, `requiresInternet` is
`command.requires_internet`. -/
structure CmdSpec where
  shouldExecute : Bool
  hasResponseFormat : Bool
  canExecuteNow : Bool
  requiresInternet : Bool
deriving DecidableEq

/-- How `execute_commands` finished with the command it processed:
`gateRejected` is the `not can_execute_now` block (lines 890-926, all of
whose sub-branches fall through to the same `return`), `noInternet` is the
failed connectivity check (lines 929-945), `executed` means
`command.execute(message)` was invoked (lines 947-1016; the exception
handler also ends at the same `return`). -/
inductive ExecOutcome where
  | gateRejected : ExecOutcome
  | noInternet : ExecOutcome
  | executed : ExecOutcome
deriving DecidableEq

/-- `CommandManager.execute_commands` (lines 863-1016) over the registered
commands in registry order: the first command with `should_execute` true and
no response format is processed and the sweep returns; commands with a
response format are skipped with `continue`.  Returns the 0-based index of
the processed command and the branch it took, or `none` when the sweep falls
off the end of the registry. -/
def executeCommands (internet : Bool) : List CmdSpec → Option (Nat × ExecOutcome)
  | [] => none
  | c :: cs =>
    if c.shouldExecute && !c.hasResponseFormat then
      if !c.canExecuteNow then some (0, ExecOutcome.gateRejected)
      else if c.requiresInternet && !internet then some (0, ExecOutcome.noInternet)
      else some (0, ExecOutcome.executed)
    else (executeCommands internet cs).map (fun p => (p.1 + 1, p.2))

/-- A command is self-handling (for this message) when it matches and has no
static response format. -/
def isSelfHandling (c : CmdSpec) : Bool := c.shouldExecute && !c.hasResponseFormat

/-- Number of `command.execute` invocations performed by `execute_commands`. -/
def executeInvocations (internet : Bool) (cmds : List CmdSpec) : Nat :=
  match executeCommands internet cmds with
  | some (_, ExecOutcome.executed) => 1
  | _ => 0

/-!  Matching engine: `CommandManager.check_keywords` (lines 360-460). -/

/-- The capability surface of one registered command as consulted by
`check_keywords`: `shouldExecute` is `should_execute(message)`, `canExecute`
is `can_execute(message)`, `responseFormat` is `get_response_format()`, and
`formatResponse` is the external `format_response(message, fmt)`. -/
structure KCommand where
  keywords : List (List Char)
  shouldExecute : Bool
  canExecute : Bool
  requiresInternet : Bool
  responseFormat : Option (List Char)
  formatResponse : List Char → List Char

/-- The environment `check_keywords` runs in: the plugin registry
(`self.commands`, an insertion-ordered dict), the static `[Keywords]` table
(`self.keywords`), the sync cached connectivity result, and the external
formatting/help collaborators.  `fmtFails k` models
`format_keyword_response` raising on template `k` (lines 442-445/455-458). -/
structure KwEnv where
  commands : List (List Char × KCommand)
  table : List (List Char × List Char)
  hasInternet : Bool
  fmt : List Char → List Char
  fmtFails : List Char → Bool
  helpFor : List Char → List Char
  generalHelp : List Char

/-- Python `str.lower()` on one character (exact on the ASCII range). -/
def pyLower (c : Char) : Char := c.toLower

/-- Content normalization of `check_keywords` and `execute_commands`
(lines 373-376): strip, drop one leading `'!'`, strip again. -/
def stripContent (s : List Char) : List Char :=
  let c := stripList s
  if c.head? == some '!' then stripList (c.drop 1) else c

/-- Lookup in the `self.commands` dict. -/
def lookupCmd (cmds : List (List Char × KCommand)) (name : List Char) : Option KCommand :=
  (cmds.find? (fun x => x.1 == name)).map (fun x => x.2)

/-- The help keyword set (lines 381-385): the `help` command's keywords
lower-cased when a `help` plugin is registered, else `['help']`. -/
def helpKeywordsOf (cmds : List (List Char × KCommand)) : List (List Char) :=
  match lookupCmd cmds ("help".toList) with
  | some hc => hc.keywords.map (List.map pyLower)
  | none => ["help".toList]

/-- The help-interception loop (lines 388-401): for each help keyword, a
message starting with it plus a space yields command-scoped help, a message
equal to it yields general help; both return immediately as the sole match. -/
def helpScan (env : KwEnv) (cl : List Char) :
    List (List Char) → Option (List (List Char × Option (List Char)))
  | [] => none
  | hk :: rest =>
    if patAt (hk ++ [' ']) cl then
      some [("help".toList, some (env.fmt (env.helpFor (stripList (cl.drop hk.length)))))]
    else if cl == hk then
      some [("help".toList, some (env.fmt env.generalHelp))]
    else helpScan env cl rest

/-- The plugin sweep (lines 404-426): a command that matches, can execute and
passes the connectivity gate contributes `(name, formatted)` when it has a
response format, else the self-handling marker `(name, none)`. -/
def commandSweep (env : KwEnv) : List (List Char × KCommand) →
    List (List Char × Option (List Char))
  | [] => []
  | (name, c) :: rest =>
    let tail := commandSweep env rest
    if c.shouldExecute && c.canExecute && (!c.requiresInternet || env.hasInternet) then
      match c.responseFormat with
      | some f => (name, some (c.formatResponse f)) :: tail
      | none => (name, none) :: tail
    else tail

/-- The ownership check of the residual sweep (line 431): the keyword is
contained, case-insensitively, in some registered command's keyword set. -/
def ownedByCommand (cmds : List (List Char × KCommand)) (kw : List Char) : Bool :=
  cmds.any (fun x => (x.2.keywords.map (List.map pyLower)).contains (kw.map pyLower))

/-- Formatting with the exception fallback (lines 438-445): on a formatting
error the raw template is used and the match is kept. -/
def fmtOrRaw (env : KwEnv) (rf : List Char) : List Char :=
  if env.fmtFails rf then rf else env.fmt rf

/-- The residual static-keyword sweep (lines 429-458): keywords owned by a
command's keyword set are skipped; the rest match on exact equality with the
normalized content, or as its first word (keyword followed by a space or
end of string). -/
def residualSweepAux (env : KwEnv) (cl : List Char) :
    List (List Char × List Char) → List (List Char × Option (List Char))
  | [] => []
  | (kw, rf) :: rest =>
    let tail := residualSweepAux env cl rest
    if ownedByCommand env.commands kw then tail
    else
      let kl := kw.map pyLower
      if kl == cl then (kw, some (fmtOrRaw env rf)) :: tail
      else if patAt kl cl then
        if cl.length == kl.length || cl.get? kl.length == some ' ' then
          (kw, some (fmtOrRaw env rf)) :: tail
        else tail
      else tail

/-- The residual static-keyword sweep over the whole `[Keywords]` table. -/
def residualSweep (env : KwEnv) (cl : List Char) : List (List Char × Option (List Char)) :=
  residualSweepAux env cl env.table

/-- `CommandManager.check_keywords` (lines 360-460): help interception first
(short-circuiting), then the plugin sweep, then the residual keyword sweep. -/
def checkKeywords (env : KwEnv) (content : List Char) :
    List (List Char × Option (List Char)) :=
  let cl := (stripContent content).map pyLower
  match helpScan env cl (helpKeywordsOf env.commands) with
  | some ms => ms
  | none => commandSweep env env.commands ++ residualSweep env cl

/-!  Connectivity cache: `InternetStatusCache` (lines 23-58) and
`CommandManager._check_internet_cached_async` (lines 1043-1067).  Timestamps
(`time.time()` floats) are modelled as rationals.  The `asyncio.Lock` held
around the whole check-or-refresh sequence serializes concurrent async
callers, so successive calls are modelled by explicit state passing. -/

/-- The shared cache entry: `has_internet` and `timestamp`. -/
structure InternetCache where
  hasInternet : Bool
  timestamp : ℚ
deriving DecidableEq

/-- `self._internet_cache_duration` (line 86). -/
def internetCacheDuration : ℚ := 30

/-- `InternetStatusCache.is_valid` (lines 49-58): `time.time() - timestamp <
cache_duration`, where `now` is the fresh `time.time()` read inside it. -/
def cacheIsValid (st : InternetCache) (now dur : ℚ) : Bool :=
  decide (now - st.timestamp < dur)

/-- `CommandManager._check_internet_cached_async` (lines 1043-1067), run under
the cache lock.  `tEntry` is the `time.time()` read at line 1054 (written back
on refresh), `tValid` the later `time.time()` read inside `is_valid`, and
`probe` the result `check_internet_connectivity_async()` would return.
Returns (returned value, cache afterwards, whether a probe was performed). -/
def checkInternetCachedAsync (st : InternetCache) (tEntry tValid : ℚ) (probe : Bool) :
    Bool × InternetCache × Bool :=
  if cacheIsValid st tValid internetCacheDuration then (st.hasInternet, st, false)
  else (probe, ⟨probe, tEntry⟩, true)

/-- `b` is obtained from `a` by deleting some whitespace characters (and
nothing else): order preserved, no non-whitespace character lost or
duplicated.  This is the exact damage the splitter's per-part
`rstrip`/`lstrip` can do to the concatenated bodies. -/
inductive wsDel : List Char → List Char → Prop where
  | nil : wsDel [] []
  | keep (c : Char) {a b : List Char} : wsDel a b → wsDel (c :: a) (c :: b)
  | drop {c : Char} {a b : List Char} : isPySpace c = true → wsDel a b → wsDel (c :: a) b

/-- Concrete keyword environment: a registered `ping` command owning keyword
`ping`, and a static `[Keywords]` entry `ping` in the residual table. -/
def pingEnv : KwEnv where
  commands := [("ping".toList,
    { keywords := ["ping".toList], shouldExecute := true, canExecute := true,
      requiresInternet := false, responseFormat := some ("Pong!".toList),
      formatResponse := fun s => s })]
  table := [("ping".toList, "Pong!".toList)]
  hasInternet := true
  fmt := fun s => s
  fmtFails := fun _ => false
  helpFor := fun _ => []
  generalHelp := "Help".toList

/-- Concrete content for evaluating `split_message` under a 20-byte budget:
nine space-separated 8-character words followed by an unbroken 14-character
word (95 UTF-8 bytes in total). -/
def c1Content : List Char :=
  ("aaaaaaaa aaaaaaaa aaaaaaaa aaaaaaaa aaaaaaaa aaaaaaaa aaaaaaaa aaaaaaaa aaaaaaaa bbbbbbbbbbbbbb").toList

/-!  ## Theorems -/

/-- C7: for every content string whose UTF-8 encoding is at most `maxBytes`,
`split_message` returns exactly the single-element list containing the
unmodified input, with no part-number prefix added. -/
theorem c7_short_content_unsplit (content : List Char) (maxB : Nat)
    (h : utf8Len content ≤ maxB) : split_message content maxB = some [content] := by
  simp [split_message, h]

/-- C7 witness: a concrete short message is returned unmodified. -/
theorem c7_short_content_unsplit_witness :
    split_message ("hi".toList) 150 = some ["hi".toList] :=
  c7_short_content_unsplit ("hi".toList) 150 (by decide)

/-- C3: in the part-sending loop of `send_dm`/`send_channel_message`, if the
parts before some failing part all succeed, then exactly those parts are sent
successfully, the failing part is the last one attempted (later parts are
never attempted), and the call reports overall failure. -/
theorem c3_abort_on_failure (pre post : List Bool) (h : ∀ x ∈ pre, x = true) :
    sendPartsLoop (pre ++ false :: post) = (pre.length, pre.length + 1, false) := by
  induction pre with
  | nil => rfl
  | cons b bs ih =>
    have hb : b = true := h b (List.mem_cons_self b bs)
    have hbs : ∀ x ∈ bs, x = true := fun x hx => h x (List.mem_cons_of_mem _ hx)
    subst hb
    simp [sendPartsLoop, ih hbs]

/-- C3 witness: a 3-part message whose second part fails results in exactly
part 1 sent, part 2 attempted and failed, part 3 never attempted, and overall
failure. -/
theorem c3_abort_on_failure_witness :
    sendPartsLoop [true, false, true] = (1, 2, false) :=
  c3_abort_on_failure [true] [true] (by decide)

/-- C5: `_handle_send_result` classifies every send result as specified: a
missing/null result or an error-typed event fails; a sent/ok-typed event
succeeds; an event of any other type succeeds only for channel sends whose
payload reason is `no_event_received`, and fails otherwise; and the two rate
limiters are recorded exactly on the success outcomes. -/
theorem c5_send_result_classification (et : Option EvType) (rs : Option String) (ch : Bool) :
    handleSendResult none ch = (false, false)
    ∧ (et = some EvType.error → handleSendResult (some ⟨et, rs⟩) ch = (false, false))
    ∧ (et = some EvType.msgSent ∨ et = some EvType.ok →
        handleSendResult (some ⟨et, rs⟩) ch = (true, true))
    ∧ (∀ t, et = some (EvType.other t) → ch = true → rs = some "no_event_received" →
        handleSendResult (some ⟨et, rs⟩) ch = (true, true))
    ∧ (∀ t, et = some (EvType.other t) → ¬(ch = true ∧ rs = some "no_event_received") →
        handleSendResult (some ⟨et, rs⟩) ch = (false, false))
    ∧ (handleSendResult (some ⟨et, rs⟩) ch).2 = (handleSendResult (some ⟨et, rs⟩) ch).1 := by
  refine ⟨rfl, ?_, ?_, ?_, ?_, ?_⟩
  · rintro rfl; rfl
  · intro h
    rcases h with rfl | rfl
    · rfl
    · rfl
  · rintro t rfl rfl rfl
    simp [handleSendResult]
  · rintro t rfl hn
    have : ¬(ch = true ∧ (rs == some "no_event_received") = true) := by
      simpa using hn
    simp only [handleSendResult]
    rw [if_neg]
    intro hcontra
    rcases Bool.and_eq_true _ _ |>.mp hcontra with ⟨h1, h2⟩
    exact this ⟨h1, h2⟩
  · rcases et with _ | et
    · rfl
    · rcases et with _ | _ | _ | t
      · rfl
      · rfl
      · rfl
      · simp only [handleSendResult]
        split
        · rfl
        · rfl

/-- C5 witness: an error-typed event for a DM send is classified as failure
with no rate-limiter recording. -/
theorem c5_send_result_classification_witness :
    handleSendResult (some ⟨some EvType.error, none⟩) false = (false, false) :=
  (c5_send_result_classification (some EvType.error) none false).2.1 rfl

/-- C9: the async cached connectivity check returns either a cached value
whose age (at the freshness read) is under the 30-second TTL with no probe,
or a value refreshed by a probe performed during that very call (writing the
entry timestamp back); a call whose cache is TTL-expired probes; and any call
arriving while the refreshed entry is still within the TTL performs no second
probe and returns the refreshed value. -/
theorem c9_cache_ttl (st : InternetCache) (tE tV : ℚ) (probe : Bool) :
    ((checkInternetCachedAsync st tE tV probe).2.2 = false →
      (checkInternetCachedAsync st tE tV probe).1 = st.hasInternet
      ∧ tV - st.timestamp < 30)
    ∧ ((checkInternetCachedAsync st tE tV probe).2.2 = true →
      (checkInternetCachedAsync st tE tV probe).1 = probe
      ∧ (checkInternetCachedAsync st tE tV probe).2.1 = ⟨probe, tE⟩)
    ∧ (30 ≤ tV - st.timestamp → (checkInternetCachedAsync st tE tV probe).2.2 = true)
    ∧ (∀ st2 tE2 tV2 probe2, checkInternetCachedAsync st tE tV probe = (probe, st2, true) →
        tV2 - st2.timestamp < 30 →
        checkInternetCachedAsync st2 tE2 tV2 probe2 = (st2.hasInternet, st2, false)) := by
  by_cases h : tV - st.timestamp < 30
  · refine ⟨fun _ => ⟨?_, h⟩, ?_, ?_, ?_⟩
    · simp [checkInternetCachedAsync, cacheIsValid, internetCacheDuration, h]
    · intro hp
      exfalso
      simp [checkInternetCachedAsync, cacheIsValid, internetCacheDuration, h] at hp
    · intro hge; exfalso; linarith
    · intro st2 tE2 tV2 probe2 heq
      exfalso
      simp [checkInternetCachedAsync, cacheIsValid, internetCacheDuration, h] at heq
  · have h3 : (checkInternetCachedAsync st tE tV probe).2.2 = true := by
      simp [checkInternetCachedAsync, cacheIsValid, internetCacheDuration, h]
    refine ⟨?_, fun _ => ⟨?_, ?_⟩, fun _ => h3, ?_⟩
    · intro hp; rw [h3] at hp; exact absurd hp (by simp)
    · simp [checkInternetCachedAsync, cacheIsValid, internetCacheDuration, h]
    · simp [checkInternetCachedAsync, cacheIsValid, internetCacheDuration, h]
    · intro st2 tE2 tV2 probe2 heq hlt2
      have hproj : (checkInternetCachedAsync st tE tV probe).2.1 = st2 := by rw [heq]
      have hval : (checkInternetCachedAsync st tE tV probe).2.1 = ⟨probe, tE⟩ := by
        simp [checkInternetCachedAsync, cacheIsValid, internetCacheDuration, h]
      have hst2 : st2 = ⟨probe, tE⟩ := hproj.symm.trans hval
      subst hst2
      simp [checkInternetCachedAsync, cacheIsValid, internetCacheDuration, hlt2]

/-- C9 witness: a call with an expired cache performs a fresh probe. -/
theorem c9_cache_ttl_witness :
    (checkInternetCachedAsync ⟨true, 0⟩ 100 100 false).2.2 = true :=
  (c9_cache_ttl ⟨true, 0⟩ 100 100 false).2.2.1 (by norm_num)

/-- C4: `execute_commands` invokes `execute` at most once, and the command it
processes (in any of its three terminal branches) is exactly the first
self-handling match in registry order: every earlier command either does not
match or carries a static response format; the `execute` branch is reached
exactly when the gate and connectivity checks pass. -/
theorem c4_single_execution (internet : Bool) (cmds : List CmdSpec) :
    executeInvocations internet cmds ≤ 1
    ∧ ∀ i o, executeCommands internet cmds = some (i, o) →
        ∃ pre c post, cmds = pre ++ c :: post ∧ i = pre.length
          ∧ (∀ c' ∈ pre, isSelfHandling c' = false)
          ∧ isSelfHandling c = true
          ∧ (o = ExecOutcome.executed ↔
              c.canExecuteNow = true ∧ (c.requiresInternet = true → internet = true)) := by
  constructor
  · rcases h : executeCommands internet cmds with _ | ⟨j, o⟩
    · simp [executeInvocations, h]
    · rcases o
      · simp [executeInvocations, h]
      · simp [executeInvocations, h]
      · simp [executeInvocations, h]
  · induction cmds with
    | nil => intro i o h; simp [executeCommands] at h
    | cons c cs ih =>
      intro i o h
      by_cases hs : isSelfHandling c = true
      · have hs' : (c.shouldExecute && !c.hasResponseFormat) = true := hs
        simp only [executeCommands, hs', if_true] at h
        split_ifs at h with h1 h2
        · injection h with hpair
          injection hpair with hi ho
          subst ho
          refine ⟨[], c, cs, rfl, hi.symm, by simp, hs, ?_⟩
          have h1' : c.canExecuteNow = false := by
            cases hcc : c.canExecuteNow
            · rfl
            · rw [hcc] at h1; simp at h1
          constructor
          · intro hcontra; exact ExecOutcome.noConfusion hcontra
          · rintro ⟨hc, _⟩; rw [h1'] at hc; exact Bool.noConfusion hc
        · injection h with hpair
          injection hpair with hi ho
          subst ho
          refine ⟨[], c, cs, rfl, hi.symm, by simp, hs, ?_⟩
          rcases Bool.and_eq_true _ _ |>.mp h2 with ⟨hr, hni⟩
          constructor
          · intro hcontra; exact ExecOutcome.noConfusion hcontra
          · rintro ⟨_, himp⟩
            rw [himp hr] at hni
            exact absurd hni (by simp)
        · injection h with hpair
          injection hpair with hi ho
          subst ho
          refine ⟨[], c, cs, rfl, hi.symm, by simp, hs, ?_⟩
          have h1' : c.canExecuteNow = true := by
            cases hcc : c.canExecuteNow
            · exact absurd (by simp [hcc]) h1
            · rfl
          refine ⟨fun _ => ⟨h1', ?_⟩, fun _ => rfl⟩
          intro hr
          cases hint : internet
          · exact absurd (by simp [hr, hint]) h2
          · rfl
      · have hs' : (c.shouldExecute && !c.hasResponseFormat) = false := by
          simpa [isSelfHandling] using hs
        simp only [executeCommands, hs', Bool.false_eq_true, if_false] at h
        rcases Option.map_eq_some'.mp h with ⟨⟨j, o'⟩, hj, hpair⟩
        injection hpair with hi ho
        subst ho
        obtain ⟨pre, cm, post, hcs, hj', hpre, hcm, hiff⟩ := ih j _ hj
        refine ⟨c :: pre, cm, post, by simp [hcs], by simp [hj', ← hi], ?_, hcm, hiff⟩
        intro c' hc'
        rcases List.mem_cons.mp hc' with rfl | hmem
        · simpa [isSelfHandling] using hs
        · exact hpre c' hmem

/-- C4 witness: with a static-template command first and a self-handling
command second, `execute_commands` processes exactly the second command and
executes it. -/
theorem c4_single_execution_witness :
    ∃ pre c post,
      [⟨true, true, true, false⟩, (⟨true, false, true, false⟩ : CmdSpec)] = pre ++ c :: post
      ∧ 1 = pre.length
      ∧ (∀ c' ∈ pre, isSelfHandling c' = false)
      ∧ isSelfHandling c = true
      ∧ (ExecOutcome.executed = ExecOutcome.executed ↔
          c.canExecuteNow = true ∧ (c.requiresInternet = true → true = true)) :=
  (c4_single_execution true
      [⟨true, true, true, false⟩, ⟨true, false, true, false⟩]).2 1
    ExecOutcome.executed (by decide)

/-- Helper for C8: a statically configured keyword owned (case-insensitively)
by some command keyword set is skipped by the residual sweep, so it never
contributes a residual-table match. -/
theorem residualSweepAux_not_mem_owned (env : KwEnv) (cl kw : List Char)
    (r : Option (List Char)) (h : ownedByCommand env.commands kw = true) :
    ∀ tbl, (kw, r) ∉ residualSweepAux env cl tbl := by
  intro tbl
  induction tbl with
  | nil => simp [residualSweepAux]
  | cons e rest ih =>
    obtain ⟨k, rf⟩ := e
    simp only [residualSweepAux]
    by_cases hk : ownedByCommand env.commands k = true
    · simpa [hk] using ih
    · have hne : k ≠ kw := by
        intro he; rw [he] at hk; exact hk h
      split_ifs
      · intro hmem
        rcases List.mem_cons.mp hmem with hhd | htl
        · exact hne (Prod.mk.injEq .. ▸ hhd).1.symm
        · exact ih htl
      · intro hmem
        rcases List.mem_cons.mp hmem with hhd | htl
        · exact hne (Prod.mk.injEq .. ▸ hhd).1.symm
        · exact ih htl
      · exact ih
      · exact ih

/-- C8: for every statically configured keyword contained case-insensitively
in some registered command's keyword set, `check_keywords` never produces a
residual-table match for that keyword; moreover whenever the help path does
not fire, the produced matches are exactly the plugin-sweep matches followed
by the residual-sweep matches, so no duplicate entry for the keyword can
arise from the residual table. -/
theorem c8_no_duplicate_keyword_match (env : KwEnv) (content kw : List Char)
    (r : Option (List Char)) (h : ownedByCommand env.commands kw = true) :
    (kw, r) ∉ residualSweep env ((stripContent content).map pyLower)
    ∧ (helpScan env ((stripContent content).map pyLower) (helpKeywordsOf env.commands) = none →
        checkKeywords env content =
          commandSweep env env.commands
            ++ residualSweep env ((stripContent content).map pyLower)) := by
  constructor
  · exact residualSweepAux_not_mem_owned env _ kw r h env.table
  · intro hns
    simp only [checkKeywords, hns]

/-- C8 witness: with a registered `ping` command owning keyword `ping` and a
static keyword `ping`, the residual table contributes no `ping` match. -/
theorem c8_no_duplicate_keyword_match_witness :
    ("ping".toList, some ("Pong!".toList)) ∉
      residualSweep pingEnv ((stripContent ("ping".toList)).map pyLower) :=
  (c8_no_duplicate_keyword_match pingEnv ("ping".toList) ("ping".toList)
    (some ("Pong!".toList)) (by rfl)).1

/-!  ### Facts about UTF-8 byte lengths -/

theorem utf8Len_nil : utf8Len [] = 0 := rfl

theorem utf8Len_cons (c : Char) (t : List Char) :
    utf8Len (c :: t) = c.utf8Size + utf8Len t := rfl

theorem utf8Len_append (a b : List Char) : utf8Len (a ++ b) = utf8Len a + utf8Len b := by
  induction a with
  | nil => simp [utf8Len_nil]
  | cons c t ih => simp [utf8Len_cons, ih]; omega

theorem utf8Len_take_le (n : Nat) (s : List Char) : utf8Len (s.take n) ≤ utf8Len s := by
  conv_rhs => rw [← List.take_append_drop n s]
  rw [utf8Len_append]
  omega

theorem utf8Len_take_mono (s : List Char) {a b : Nat} (h : a ≤ b) :
    utf8Len (s.take a) ≤ utf8Len (s.take b) := by
  have hsub : s.take a = (s.take b).take a := by
    rw [List.take_take, Nat.min_eq_left h]
  rw [hsub]
  exact utf8Len_take_le a (s.take b)

theorem length_le_utf8Len (s : List Char) : s.length ≤ utf8Len s := by
  induction s with
  | nil => simp [utf8Len_nil]
  | cons c t ih =>
    have := c.utf8Size_pos
    simp only [List.length_cons, utf8Len_cons]
    omega

/-!  ### Facts about part prefixes and body extraction -/

theorem digitChar_ne_rbracket (d : Nat) : digitChar d ≠ ']' := by
  unfold digitChar
  split <;> decide

theorem natCharsAux_mem : ∀ (f n : Nat) (acc : List Char) (c : Char),
    c ∈ natCharsAux f n acc → c ∈ acc ∨ ∃ d, c = digitChar d := by
  intro f
  induction f with
  | zero => intro n acc c h; exact Or.inl h
  | succ f ih =>
    intro n acc c h
    simp only [natCharsAux] at h
    by_cases hn : n < 10
    · rw [if_pos hn] at h
      rcases List.mem_cons.mp h with rfl | h'
      · exact Or.inr ⟨n, rfl⟩
      · exact Or.inl h'
    · rw [if_neg hn] at h
      rcases ih (n / 10) (digitChar (n % 10) :: acc) c h with h' | h'
      · rcases List.mem_cons.mp h' with rfl | h''
        · exact Or.inr ⟨n % 10, rfl⟩
        · exact Or.inl h''
      · exact Or.inr h'

theorem natChars_ne_rbracket (n : Nat) : ']' ∉ natChars n := by
  intro h
  rcases natCharsAux_mem (n + 1) n [] ']' h with h' | ⟨d, hd⟩
  · exact List.not_mem_nil ']' h'
  · exact digitChar_ne_rbracket d hd.symm

theorem intChars_ne_rbracket (i : Int) : ']' ∉ intChars i := by
  unfold intChars
  split_ifs
  · intro h
    rcases List.mem_cons.mp h with h' | h'
    · exact absurd h' (by decide)
    · exact natChars_ne_rbracket _ h'
  · exact natChars_ne_rbracket _

theorem pfxCore_ne_rbracket (p : Nat) (est : Int) : ']' ∉ pfxCore p est := by
  unfold pfxCore
  intro h
  rcases List.mem_cons.mp h with h' | h'
  · exact absurd h' (by decide)
  · rcases List.mem_append.mp h' with h'' | h''
    · exact natChars_ne_rbracket p h''
    · rcases List.mem_cons.mp h'' with h3 | h3
      · exact absurd h3 (by decide)
      · exact intChars_ne_rbracket est h3

theorem natCharsAux_length_le : ∀ (f n : Nat) (acc : List Char),
    acc.length ≤ (natCharsAux f n acc).length := by
  intro f
  induction f with
  | zero => intro n acc; exact Nat.le_refl _
  | succ f ih =>
    intro n acc
    simp only [natCharsAux]
    by_cases hn : n < 10
    · rw [if_pos hn]; simp
    · rw [if_neg hn]
      have := ih (n / 10) (digitChar (n % 10) :: acc)
      simp only [List.length_cons] at this
      omega

theorem natChars_length_pos (n : Nat) : 1 ≤ (natChars n).length := by
  unfold natChars
  simp only [natCharsAux]
  by_cases hn : n < 10
  · rw [if_pos hn]; simp
  · rw [if_neg hn]
    have := natCharsAux_length_le n (n / 10) [digitChar (n % 10)]
    simp only [List.length_cons, List.length_nil] at this
    omega

theorem intChars_length_pos (i : Int) : 1 ≤ (intChars i).length := by
  unfold intChars
  split_ifs
  · simp
  · exact natChars_length_pos _

theorem pfxLoop_utf8_ge (p : Nat) (est : Int) : 6 ≤ utf8Len (pfxLoop p est) := by
  have h1 : 6 ≤ (pfxLoop p est).length := by
    have hn := natChars_length_pos p
    have hi := intChars_length_pos est
    simp only [pfxLoop, pfxCore, List.length_append, List.length_cons]
    omega
  exact le_trans h1 (length_le_utf8Len _)

theorem patAt_length : ∀ (pat s : List Char), patAt pat s = true → pat.length ≤ s.length := by
  intro pat
  induction pat with
  | nil => intro s _; simp
  | cons a ps ih =>
    intro s h
    cases s with
    | nil => simp [patAt] at h
    | cons b ss =>
      simp only [patAt, Bool.and_eq_true] at h
      have := ih ss h.2
      simp only [List.length_cons]
      omega

theorem findPat_cons (c : Char) (s pat : List Char) :
    findPat (c :: s) pat =
      if patAt pat (c :: s) then some 0 else (findPat s pat).map (· + 1) := rfl

theorem findPat_rbracket (xs body : List Char) (h : ']' ∉ xs) :
    findPat (xs ++ ']' :: ' ' :: body) ([']', ' ']) = some xs.length := by
  induction xs with
  | nil =>
    rw [List.nil_append, findPat_cons]
    simp [patAt]
  | cons c t ih =>
    have hc : c ≠ ']' := by
      intro he
      exact h (by rw [he]; exact List.mem_cons_self ']' t)
    have ht : ']' ∉ t := fun hm => h (List.mem_cons_of_mem _ hm)
    have hpat : patAt ([']', ' ']) (c :: (t ++ ']' :: ' ' :: body)) = false := by
      by_cases hcc : (']' : Char) = c
      · exact absurd hcc.symm hc
      · simp [patAt, hcc]
    rw [List.cons_append, findPat_cons, hpat]
    simp only [Bool.false_eq_true, if_false]
    rw [ih ht]
    simp

theorem bodyOf_pfxLoop (p : Nat) (est : Int) (body : List Char) :
    bodyOf (pfxLoop p est ++ body) = body := by
  have hassoc : pfxLoop p est ++ body = pfxCore p est ++ (']' :: ' ' :: body) := by
    simp [pfxLoop, List.append_assoc]
  rw [hassoc]
  unfold bodyOf oldPfxEnd
  rw [findPat_rbracket _ _ (pfxCore_ne_rbracket p est)]
  rw [show pfxCore p est ++ ']' :: ' ' :: body = (pfxCore p est ++ [']', ' ']) ++ body by simp]
  exact List.drop_left' (by simp)

/-!  ### Positivity of the adjusted split index -/

theorem pickPunct_pos (chunk : List Char) (half : Nat) :
    ∀ pats i, pickPunct chunk half pats = some i → 1 ≤ i := by
  intro pats
  induction pats with
  | nil => intro i h; simp [pickPunct] at h
  | cons pat rest ih =>
    intro i h
    simp only [pickPunct] at h
    rcases hr : rfindPat chunk pat with _ | p
    · rw [hr] at h
      exact ih i h
    · rw [hr] at h
      dsimp only at h
      split_ifs at h with hp
      · injection h with h'; omega
      · exact ih i h

theorem spaceStep_pos (chunk : List Char) (dflt : Nat) (hd : 1 ≤ dflt) :
    1 ≤ spaceStep chunk dflt := by
  unfold spaceStep
  rcases rfindPat chunk [' '] with _ | p
  · exact hd
  · dsimp only
    split_ifs with hp
    · omega
    · exact hd

theorem commaStep_pos (chunk : List Char) (dflt : Nat) (hd : 1 ≤ dflt) :
    1 ≤ commaStep chunk dflt := by
  unfold commaStep
  rcases hr : pickPunct chunk (chunk.length / 2) [[',', ' '], [';', ' ']] with _ | i
  · exact spaceStep_pos chunk dflt hd
  · exact pickPunct_pos chunk _ _ i hr

theorem sentenceStep_pos (chunk : List Char) (dflt : Nat) (hd : 1 ≤ dflt) :
    1 ≤ sentenceStep chunk dflt := by
  unfold sentenceStep
  rcases hr : pickPunct chunk (chunk.length / 2) [['.', ' '], ['!', ' '], ['?', ' ']] with _ | i
  · exact commaStep_pos chunk dflt hd
  · exact pickPunct_pos chunk _ _ i hr

theorem adjustSplitIndex_pos (chunk : List Char) (dflt : Nat) (hd : 1 ≤ dflt) :
    1 ≤ adjustSplitIndex chunk dflt := by
  unfold adjustSplitIndex
  rcases rfindPat chunk ['\n'] with _ | p
  · exact sentenceStep_pos chunk dflt hd
  · dsimp only
    split_ifs with hp
    · omega
    · exact sentenceStep_pos chunk dflt hd

/-!  ### The binary search finds the largest fitting index -/

theorem bsearchAux_spec (fits : Nat → Bool)
    (hmono : ∀ a b, a ≤ b → fits b = true → fits a = true) :
    ∀ (f low high : Nat), high ≤ low + f → fits low = true →
      fits (bsearchAux fits f low high) = true
      ∧ low ≤ bsearchAux fits f low high
      ∧ ∀ k, k ≤ high → fits k = true → k ≤ bsearchAux fits f low high := by
  intro f
  induction f with
  | zero =>
    intro low high hgap hlow
    simp only [bsearchAux]
    exact ⟨hlow, Nat.le_refl _, fun k hk _ => by omega⟩
  | succ f ih =>
    intro low high hgap hlow
    simp only [bsearchAux]
    by_cases hlh : low < high
    · rw [if_pos hlh]
      have hm1 : low < (low + high + 1) / 2 := by omega
      have hm2 : (low + high + 1) / 2 ≤ high := by omega
      by_cases hf : fits ((low + high + 1) / 2) = true
      · rw [if_pos hf]
        obtain ⟨ha, hb, hc⟩ := ih ((low + high + 1) / 2) high (by omega) hf
        exact ⟨ha, by omega, hc⟩
      · rw [if_neg hf]
        obtain ⟨ha, hb, hc⟩ := ih low ((low + high + 1) / 2 - 1) (by omega) hlow
        refine ⟨ha, hb, ?_⟩
        intro k hk hfk
        by_cases hkm : (low + high + 1) / 2 ≤ k
        · exact absurd (hmono _ k hkm hfk) hf
        · exact hc k (by omega) hfk
    · rw [if_neg hlh]
      exact ⟨hlow, Nat.le_refl _, fun k hk _ => by omega⟩

theorem findByteSafeSplit_pos (text : List Char) (maxB : Int) (h4 : 4 ≤ maxB)
    (hne : text ≠ []) : 1 ≤ findByteSafeSplit text maxB := by
  unfold findByteSafeSplit
  split_ifs with hfit
  · exact List.length_pos.mpr hne
  · have hmono : ∀ a b, a ≤ b →
        (decide ((utf8Len (text.take b) : Int) ≤ maxB)) = true →
        (decide ((utf8Len (text.take a) : Int) ≤ maxB)) = true := by
      intro a b hab hb
      rw [decide_eq_true_eq] at hb ⊢
      have := utf8Len_take_mono text hab
      omega
    have hlow : (decide ((utf8Len (text.take 0) : Int) ≤ maxB)) = true := by
      rw [decide_eq_true_eq]
      simp [utf8Len_nil]
      omega
    obtain ⟨_, _, hmax⟩ :=
      bsearchAux_spec (fun m => decide ((utf8Len (text.take m) : Int) ≤ maxB)) hmono
        text.length 0 text.length (by omega) hlow
    refine hmax 1 (List.length_pos.mpr hne) ?_
    rcases text with _ | ⟨c, t⟩
    · exact absurd rfl hne
    · rw [decide_eq_true_eq]
      have hle : utf8Len ((c :: t).take 1) ≤ 4 := by
        simp only [List.take_succ_cons, List.take_zero, utf8Len_cons, utf8Len_nil]
        have := c.utf8Size_le_four
        omega
      omega

/-!  ### Whitespace deletion -/

theorem wsDel_refl (l : List Char) : wsDel l l := by
  induction l with
  | nil => exact wsDel.nil
  | cons c t ih => exact wsDel.keep c ih

theorem wsDel_append {a b c d : List Char} (h1 : wsDel a b) (h2 : wsDel c d) :
    wsDel (a ++ c) (b ++ d) := by
  induction h1 with
  | nil => simpa using h2
  | keep ch h ih => exact wsDel.keep ch ih
  | drop hsp h ih => exact wsDel.drop hsp ih

theorem wsDel_spaces (w : List Char) (hw : ∀ ch ∈ w, isPySpace ch = true) : wsDel w [] := by
  induction w with
  | nil => exact wsDel.nil
  | cons ch t ih =>
    exact wsDel.drop (hw ch (List.mem_cons_self ch t))
      (ih fun x hx => hw x (List.mem_cons_of_mem _ hx))

theorem wsDel_trans : ∀ {a b c : List Char}, wsDel a b → wsDel b c → wsDel a c := by
  intro a b c h1
  induction h1 generalizing c with
  | nil =>
    intro h2
    cases h2
    exact wsDel.nil
  | keep ch h ih =>
    intro h2
    cases h2 with
    | keep cc h2' => exact wsDel.keep _ (ih h2')
    | drop hsp2 h2' => exact wsDel.drop hsp2 (ih h2')
  | drop hsp h ih =>
    intro h2
    exact wsDel.drop hsp (ih h2)

theorem wsDel_lstrip (s : List Char) : wsDel s (lstripList s) := by
  unfold lstripList
  induction s with
  | nil => exact wsDel.nil
  | cons c t ih =>
    rw [List.dropWhile_cons]
    split_ifs with hc
    · exact wsDel.drop hc ih
    · exact wsDel_refl _

theorem wsDel_rstrip (s : List Char) : wsDel s (rstripList s) := by
  have h0 : (s.reverse.takeWhile isPySpace) ++ (s.reverse.dropWhile isPySpace) = s.reverse := by
    simp
  have hdecomp : s = rstripList s ++ (s.reverse.takeWhile isPySpace).reverse := by
    unfold rstripList
    calc s = s.reverse.reverse := (List.reverse_reverse s).symm
    _ = ((s.reverse.takeWhile isPySpace) ++ (s.reverse.dropWhile isPySpace)).reverse := by
        rw [h0]
    _ = (s.reverse.dropWhile isPySpace).reverse ++ (s.reverse.takeWhile isPySpace).reverse := by
        rw [List.reverse_append]
  have hsp : ∀ ch ∈ (s.reverse.takeWhile isPySpace).reverse, isPySpace ch = true := by
    intro ch hch
    rw [List.mem_reverse] at hch
    exact List.mem_takeWhile_imp hch
  have hw := wsDel_append (wsDel_refl (rstripList s)) (wsDel_spaces _ hsp)
  rw [List.append_nil] at hw
  nth_rewrite 1 [hdecomp]
  exact hw

/-!  ### Structure of the parts built by the splitting loop -/

theorem splitLoop_succ (maxB : Nat) (est : Int) (fuel partNum : Nat) (remaining : List Char) :
    splitLoop maxB est (fuel + 1) partNum remaining =
      if remaining = [] then some []
      else
        if (utf8Len remaining : Int) ≤ (maxB : Int) - (utf8Len (pfxLoop partNum est) : Int)
        then some [pfxLoop partNum est ++ remaining]
        else
          match splitLoop maxB est fuel (partNum + 1)
              (lstripList (remaining.drop (adjustSplitIndex
                (remaining.take (findByteSafeSplit remaining
                  ((maxB : Int) - (utf8Len (pfxLoop partNum est) : Int))))
                (findByteSafeSplit remaining
                  ((maxB : Int) - (utf8Len (pfxLoop partNum est) : Int)))))) with
          | none => none
          | some ps => some ((pfxLoop partNum est ++ rstripList (remaining.take
              (adjustSplitIndex
                (remaining.take (findByteSafeSplit remaining
                  ((maxB : Int) - (utf8Len (pfxLoop partNum est) : Int))))
                (findByteSafeSplit remaining
                  ((maxB : Int) - (utf8Len (pfxLoop partNum est) : Int)))))) :: ps) := rfl

theorem splitLoop_shape (maxB : Nat) (est : Int) :
    ∀ (fuel partNum : Nat) (remaining : List Char) (parts : List (List Char)),
      splitLoop maxB est fuel partNum remaining = some parts →
      ∀ i (hi : i < parts.length),
        ∃ body, parts.get ⟨i, hi⟩ = pfxLoop (partNum + i) est ++ body := by
  intro fuel
  induction fuel with
  | zero =>
    intro pn r parts h
    simp [splitLoop] at h
  | succ fuel ih =>
    intro pn r parts h
    simp only [splitLoop] at h
    split_ifs at h with he hfit
    · injection h with h'
      subst h'
      intro i hi
      simp at hi
    · injection h with h'
      subst h'
      intro i hi
      have hi0 : i = 0 := by
        simp only [List.length_cons, List.length_nil] at hi
        omega
      subst hi0
      exact ⟨r, by simp⟩
    · rcases hr : splitLoop maxB est fuel (pn + 1)
        (lstripList (r.drop (adjustSplitIndex
          (r.take (findByteSafeSplit r ((maxB : Int) - (utf8Len (pfxLoop pn est) : Int))))
          (findByteSafeSplit r ((maxB : Int) - (utf8Len (pfxLoop pn est) : Int)))))) with _ | ps
      · rw [hr] at h
        exact absurd h (by simp)
      · rw [hr] at h
        injection h with h'
        subst h'
        intro i hi
        cases i with
        | zero =>
          refine ⟨rstripList (r.take (adjustSplitIndex
            (r.take (findByteSafeSplit r ((maxB : Int) - (utf8Len (pfxLoop pn est) : Int))))
            (findByteSafeSplit r ((maxB : Int) - (utf8Len (pfxLoop pn est) : Int))))), ?_⟩
          simp
        | succ j =>
          have hj : j < ps.length := by
            simp only [List.length_cons] at hi
            omega
          obtain ⟨body, hb⟩ := ih (pn + 1) _ ps hr j hj
          refine ⟨body, ?_⟩
          rw [show pn + (j + 1) = pn + 1 + j by omega]
          simpa using hb

/-!  ### The renumbering pass preserves bodies and length -/

theorem renumberAux_length (total : Nat) :
    ∀ (i : Nat) (ps : List (List Char)), (renumberAux total i ps).length = ps.length := by
  intro i ps
  induction ps generalizing i with
  | nil => rfl
  | cons p t ih => simp [renumberAux, ih]

theorem renumberAux_get (total : Nat) :
    ∀ (ps : List (List Char)) (i j : Nat) (h1 : j < ps.length)
      (h2 : j < (renumberAux total i ps).length),
      (renumberAux total i ps).get ⟨j, h2⟩ =
        pfxLoop (i + j) (total : Int) ++ bodyOf (ps.get ⟨j, h1⟩) := by
  intro ps
  induction ps with
  | nil => intro i j h1; simp at h1
  | cons p t ih =>
    intro i j h1 h2
    cases j with
    | zero => simp [renumberAux]
    | succ k =>
      have hk : k < t.length := by
        simp only [List.length_cons] at h1
        omega
      have hk2 : k < (renumberAux total (i + 1) t).length := by
        rw [renumberAux_length]
        exact hk
      rw [show i + (k + 1) = i + 1 + k by omega]
      simpa [renumberAux] using ih (i + 1) k hk hk2

theorem renumberAux_map_bodyOf (total : Nat) :
    ∀ (i : Nat) (ps : List (List Char)),
      (renumberAux total i ps).map bodyOf = ps.map bodyOf := by
  intro i ps
  induction ps generalizing i with
  | nil => rfl
  | cons p t ih => simp [renumberAux, bodyOf_pfxLoop, ih]

/-!  ### The master lemma: under a viable byte budget the splitting loop
terminates within its `length + 1` iteration bound, and its concatenated
bodies are the input with only whitespace deleted. -/

theorem splitLoop_master (maxB : Nat) (est : Int) :
    ∀ (n : Nat) (remaining : List Char) (partNum : Nat),
      remaining.length ≤ n →
      (∀ p, p ≤ partNum + remaining.length → partNum ≤ p →
          4 + utf8Len (pfxLoop p est) ≤ maxB) →
      ∃ parts, splitLoop maxB est (n + 1) partNum remaining = some parts
        ∧ wsDel remaining ((parts.map bodyOf).flatten) := by
  intro n
  induction n with
  | zero =>
    intro r pn hlen hv
    have hr : r = [] := List.length_eq_zero.mp (Nat.le_zero.mp hlen)
    subst hr
    exact ⟨[], by simp [splitLoop], by simpa using wsDel.nil⟩
  | succ n ih =>
    intro r pn hlen hv
    rcases r with _ | ⟨c, t⟩
    · exact ⟨[], by simp [splitLoop], by simpa using wsDel.nil⟩
    · have hvp : 4 + utf8Len (pfxLoop pn est) ≤ maxB := hv pn (by omega) (Nat.le_refl _)
      have h4 : (4 : Int) ≤ (maxB : Int) - (utf8Len (pfxLoop pn est) : Int) := by omega
      by_cases hfit :
          (utf8Len (c :: t) : Int) ≤ (maxB : Int) - (utf8Len (pfxLoop pn est) : Int)
      · refine ⟨[pfxLoop pn est ++ (c :: t)], ?_, ?_⟩
        · rw [splitLoop_succ, if_neg (by simp), if_pos hfit]
        · simp only [List.map_cons, List.map_nil, bodyOf_pfxLoop, List.flatten]
          simpa using wsDel_refl (c :: t)
      · have hdpos : 1 ≤ findByteSafeSplit (c :: t)
            ((maxB : Int) - (utf8Len (pfxLoop pn est) : Int)) :=
          findByteSafeSplit_pos _ _ h4 (by simp)
        have hipos : 1 ≤ adjustSplitIndex
            ((c :: t).take (findByteSafeSplit (c :: t)
              ((maxB : Int) - (utf8Len (pfxLoop pn est) : Int))))
            (findByteSafeSplit (c :: t)
              ((maxB : Int) - (utf8Len (pfxLoop pn est) : Int))) :=
          adjustSplitIndex_pos _ _ hdpos
        have hreslen : (lstripList ((c :: t).drop (adjustSplitIndex
            ((c :: t).take (findByteSafeSplit (c :: t)
              ((maxB : Int) - (utf8Len (pfxLoop pn est) : Int))))
            (findByteSafeSplit (c :: t)
              ((maxB : Int) - (utf8Len (pfxLoop pn est) : Int)))))).length
            + 1 ≤ t.length + 1 := by
          have h1 : (List.dropWhile isPySpace ((c :: t).drop (adjustSplitIndex
              ((c :: t).take (findByteSafeSplit (c :: t)
                ((maxB : Int) - (utf8Len (pfxLoop pn est) : Int))))
              (findByteSafeSplit (c :: t)
                ((maxB : Int) - (utf8Len (pfxLoop pn est) : Int)))))).length
              ≤ ((c :: t).drop (adjustSplitIndex
              ((c :: t).take (findByteSafeSplit (c :: t)
                ((maxB : Int) - (utf8Len (pfxLoop pn est) : Int))))
              (findByteSafeSplit (c :: t)
                ((maxB : Int) - (utf8Len (pfxLoop pn est) : Int))))).length :=
            List.Sublist.length_le (List.dropWhile_sublist isPySpace)
          rw [List.length_drop] at h1
          simp only [List.length_cons] at h1
          unfold lstripList
          omega
        have hrlen : (lstripList ((c :: t).drop (adjustSplitIndex
            ((c :: t).take (findByteSafeSplit (c :: t)
              ((maxB : Int) - (utf8Len (pfxLoop pn est) : Int))))
            (findByteSafeSplit (c :: t)
              ((maxB : Int) - (utf8Len (pfxLoop pn est) : Int)))))).length ≤ n := by
          have hlen2 : t.length + 1 ≤ n + 1 := by simpa using hlen
          omega
        have hv' : ∀ p, p ≤ pn + 1 + (lstripList ((c :: t).drop (adjustSplitIndex
            ((c :: t).take (findByteSafeSplit (c :: t)
              ((maxB : Int) - (utf8Len (pfxLoop pn est) : Int))))
            (findByteSafeSplit (c :: t)
              ((maxB : Int) - (utf8Len (pfxLoop pn est) : Int)))))).length →
            pn + 1 ≤ p → 4 + utf8Len (pfxLoop p est) ≤ maxB := by
          intro p hp1 hp2
          refine hv p ?_ (by omega)
          simp only [List.length_cons]
          omega
        obtain ⟨ps, hps, hwd⟩ := ih _ (pn + 1) hrlen hv'
        refine ⟨(pfxLoop pn est ++ rstripList ((c :: t).take (adjustSplitIndex
            ((c :: t).take (findByteSafeSplit (c :: t)
              ((maxB : Int) - (utf8Len (pfxLoop pn est) : Int))))
            (findByteSafeSplit (c :: t)
              ((maxB : Int) - (utf8Len (pfxLoop pn est) : Int)))))) :: ps, ?_, ?_⟩
        · rw [splitLoop_succ, if_neg (by simp), if_neg hfit, hps]
        · nth_rewrite 1 [show (c :: t) = (c :: t).take (adjustSplitIndex
            ((c :: t).take (findByteSafeSplit (c :: t)
              ((maxB : Int) - (utf8Len (pfxLoop pn est) : Int))))
            (findByteSafeSplit (c :: t)
              ((maxB : Int) - (utf8Len (pfxLoop pn est) : Int))))
            ++ (c :: t).drop (adjustSplitIndex
            ((c :: t).take (findByteSafeSplit (c :: t)
              ((maxB : Int) - (utf8Len (pfxLoop pn est) : Int))))
            (findByteSafeSplit (c :: t)
              ((maxB : Int) - (utf8Len (pfxLoop pn est) : Int))))
            from (List.take_append_drop _ _).symm]
          simp only [List.map_cons, List.flatten, bodyOf_pfxLoop]
          exact wsDel_append (wsDel_rstrip _) (wsDel_trans (wsDel_lstrip _) hwd)

/-- C10: `split_message` terminates whenever the byte budget left after every
reachable part prefix is at least 4 bytes (the largest UTF-8 code point): the
fuel `content.length + 1` — the most iterations a terminating run of the
Python loop can take, since under this precondition every iteration's split
index is at least 1 and strictly shortens the remaining text — suffices, so
the model returns `some`. -/
theorem c10_split_terminates (content : List Char) (maxB : Nat)
    (hv : ∀ p, p ≤ 1 + content.length → 1 ≤ p →
        4 + utf8Len (pfxLoop p (estimatedParts content maxB)) ≤ maxB) :
    ∃ parts, split_message content maxB = some parts := by
  by_cases hfit : utf8Len content ≤ maxB
  · exact ⟨[content], by simp [split_message, hfit]⟩
  · have h10 : 10 ≤ maxB := by
      have h6 := pfxLoop_utf8_ge 1 (estimatedParts content maxB)
      have h1 := hv 1 (by omega) (Nat.le_refl 1)
      omega
    have heff : ¬((maxB : Int) - 7 = 0) := by omega
    obtain ⟨ps, hps, _⟩ := splitLoop_master maxB (estimatedParts content maxB)
      content.length content 1 (Nat.le_refl _) (by simpa using hv)
    refine ⟨if (ps.length : Int) ≠ estimatedParts content maxB
        then renumberAux ps.length 1 ps else ps, ?_⟩
    simp only [split_message]
    rw [if_neg hfit, if_neg heff, hps]

/-- C10 witness: a concrete over-budget message under a viable budget is split
successfully. -/
theorem c10_split_terminates_witness :
    ∃ parts, split_message ("aaaaaaaaaa bbbbbbbbbb".toList) 20 = some parts :=
  c10_split_terminates ("aaaaaaaaaa bbbbbbbbbb".toList) 20 (by decide)

/-- C2 counterexample: the claim's reconstruction fails as stated.  Splitting
`"aaaaaaaaaa bbbbbbbbbb"` under a 20-byte budget yields two parts whose
whitespace-trimmed bodies concatenate to `"aaaaaaaabbbbbbbbbb"`-style text:
the space at the split boundary is deleted, so the original content is not
reconstructed. -/
theorem c2_counterexample :
    split_message ("aaaaaaaaaa bbbbbbbbbb".toList) 20 =
      some ["[1/2] aaaaaaaaaa".toList, "[2/2] bbbbbbbbbb".toList]
    ∧ ((["[1/2] aaaaaaaaaa".toList, "[2/2] bbbbbbbbbb".toList].map bodyOf).flatten
        ≠ "aaaaaaaaaa bbbbbbbbbb".toList) := by
  refine ⟨by decide, by decide⟩

/-- C2 (amended): for every content string that does not fit whole, under a
viable byte budget, concatenating the bodies of all returned parts (prefixes
removed) yields the original content with only whitespace characters deleted
(at split boundaries): order is preserved and no non-whitespace character is
lost or duplicated. -/
theorem c2_reconstruction (content : List Char) (maxB : Nat)
    (hv : ∀ p, p ≤ 1 + content.length → 1 ≤ p →
        4 + utf8Len (pfxLoop p (estimatedParts content maxB)) ≤ maxB)
    (hover : maxB < utf8Len content) :
    ∃ parts, split_message content maxB = some parts
      ∧ wsDel content ((parts.map bodyOf).flatten) := by
  have hfit : ¬(utf8Len content ≤ maxB) := by omega
  have h10 : 10 ≤ maxB := by
    have h6 := pfxLoop_utf8_ge 1 (estimatedParts content maxB)
    have h1 := hv 1 (by omega) (Nat.le_refl 1)
    omega
  have heff : ¬((maxB : Int) - 7 = 0) := by omega
  obtain ⟨ps, hps, hwd⟩ := splitLoop_master maxB (estimatedParts content maxB)
    content.length content 1 (Nat.le_refl _) (by simpa using hv)
  by_cases hren : (ps.length : Int) ≠ estimatedParts content maxB
  · refine ⟨renumberAux ps.length 1 ps, ?_, ?_⟩
    · simp only [split_message]
      rw [if_neg hfit, if_neg heff, hps]
      dsimp only
      rw [if_pos hren]
    · rw [renumberAux_map_bodyOf]
      exact hwd
  · refine ⟨ps, ?_, hwd⟩
    simp only [split_message]
    rw [if_neg hfit, if_neg heff, hps]
    dsimp only
    rw [if_neg hren]

/-- C2 (amended) witness: concrete reconstruction-up-to-whitespace for a
two-part split. -/
theorem c2_reconstruction_witness :
    ∃ parts, split_message ("aaaaaaaaaa bbbbbbbbbb".toList) 20 = some parts
      ∧ wsDel ("aaaaaaaaaa bbbbbbbbbb".toList) ((parts.map bodyOf).flatten) :=
  c2_reconstruction ("aaaaaaaaaa bbbbbbbbbb".toList) 20 (by decide) (by decide)

/-- C6 counterexample: the claim fails for the single-part case.  Content that
fits whole is returned unprefixed (per the spec's own single-part clause), so
its one part does not carry the `"[1/1] "` prefix the claim requires of every
part in an `n`-part result. -/
theorem c6_counterexample :
    split_message ("hi".toList) 150 = some ["hi".toList]
    ∧ patAt ("[1/1] ".toList) ("hi".toList) = false := by
  refine ⟨by decide, by decide⟩

/-- C6 (amended): whenever the content does not fit within `maxBytes` (so the
splitting loop and its renumbering pass run) and `split_message` returns `n`
parts, the `i`-th part (1-based) carries exactly the prefix `"[i/n] "` with
the true realized total `n` — even when the initial estimate differed from
the realized count. -/
theorem c6_prefix_consistency (content : List Char) (maxB : Nat)
    (parts : List (List Char)) (hover : maxB < utf8Len content)
    (h : split_message content maxB = some parts) :
    ∀ i (hi : i < parts.length),
      ∃ body, parts.get ⟨i, hi⟩ = pfxLoop (i + 1) ((parts.length : Int)) ++ body := by
  have hfit : ¬(utf8Len content ≤ maxB) := by omega
  simp only [split_message] at h
  rw [if_neg hfit] at h
  by_cases heff : ((maxB : Int) - 7 = 0)
  · rw [if_pos heff] at h
    exact absurd h (by simp)
  · rw [if_neg heff] at h
    rcases hsl : splitLoop maxB (estimatedParts content maxB) (content.length + 1) 1 content
      with _ | ps
    · rw [hsl] at h
      exact absurd h (by simp)
    · rw [hsl] at h
      dsimp only at h
      injection h with h2
      by_cases hren : (ps.length : Int) ≠ estimatedParts content maxB
      · rw [if_pos hren] at h2
        subst h2
        intro i hi
        have hlen : (renumberAux ps.length 1 ps).length = ps.length :=
          renumberAux_length ps.length 1 ps
        have hi2 : i < ps.length := by
          rw [← hlen]
          exact hi
        refine ⟨bodyOf (ps.get ⟨i, hi2⟩), ?_⟩
        rw [renumberAux_get ps.length ps 1 i hi2 hi, hlen,
          show (1 : Nat) + i = i + 1 by omega]
      · rw [if_neg hren] at h2
        subst h2
        intro i hi
        have hest : (ps.length : Int) = estimatedParts content maxB := by
          by_contra hne
          exact hren hne
        obtain ⟨body, hb⟩ := splitLoop_shape maxB _ _ 1 content ps hsl i hi
        refine ⟨body, ?_⟩
        rw [hb, hest, show (1 : Nat) + i = i + 1 by omega]

/-- C6 (amended) witness: the first part of a concrete two-part split carries
exactly the `"[1/2] "` prefix. -/
theorem c6_prefix_consistency_witness :
    ∃ body, (["[1/2] aaaaaaaaaa".toList, "[2/2] bbbbbbbbbb".toList].get
        ⟨0, by decide⟩) =
      pfxLoop (0 + 1)
        (((["[1/2] aaaaaaaaaa".toList, "[2/2] bbbbbbbbbb".toList] :
          List (List Char)).length : Int)) ++ body :=
  c6_prefix_consistency ("aaaaaaaaaa bbbbbbbbbb".toList) 20
    ["[1/2] aaaaaaaaaa".toList, "[2/2] bbbbbbbbbb".toList] (by decide) (by decide)
    0 (by decide)

set_option maxRecDepth 4000 in
/-- C1: evaluation of `split_message` at a failing input.  The budget is
viable (every reachable prefix leaves at least 4 bytes), yet the returned
part `"[10/11] bbbbbbbbbbbbb"` occupies 21 UTF-8 bytes under the 20-byte
budget: the final renumbering pass rewrote the prefix `"[10/8] "` (7 bytes)
to `"[10/11] "` (8 bytes) without re-checking the byte bound, contradicting
the function's documented guarantee that every part fits `max_bytes`. -/
theorem c1_byte_budget_violation :
    (∀ p, p ≤ 1 + c1Content.length → 1 ≤ p →
        4 + utf8Len (pfxLoop p (estimatedParts c1Content 20)) ≤ 20)
    ∧ ("[10/11] bbbbbbbbbbbbb".toList) ∈ (split_message c1Content 20).getD []
    ∧ 20 < utf8Len ("[10/11] bbbbbbbbbbbbb".toList) := by
  refine ⟨by decide, by decide, by decide⟩

end MeshBot
